import Mathlib

/-!
Verification of the MacHeap binary-type library against its specification.

The development shallowly embeds the relevant parts of the source:

* src/lib/ptypes/bitmap.py      : the bitmap value type and its operations
* src/lib/ptypes/provider.py    : the in-memory string provider
* src/lib/ptypes/ptype.py       : the atomic type and container load pipeline
* src/lib/ptypes/parray.py      : array loading policies and element insertion
* src/lib/ptypes/dynamic.py     : the align padding factory
* src/lib/macheap.py            : the checksummed free-list pointer (ptr_union)

Python integers are modelled with Nat and Int.  Bitwise operations of the
source are rendered in kernel-computable arithmetic form:
a mask of the shape 2 ^ k - 1 becomes a remainder (x mod 2 ^ k), a left shift
becomes multiplication, a right shift becomes division, and genuinely
bitwise or / xor / and are computed by the structural helpers orBits,
xorBits and andBits below, which process a stated number of low bits.
Fallible code paths (Python exceptions) are modelled with Option or Except.
-/

/-- Bitwise or of the low w bits of two naturals.  Models the Python
expression (a | b) & (2 ** w - 1); it agrees with a | b whenever both
operands are below 2 ^ w. -/
def orBits : ℕ → ℕ → ℕ → ℕ
| 0, _, _ => 0
| w + 1, a, b => orBits w (a / 2) (b / 2) * 2 + (if a % 2 = 1 ∨ b % 2 = 1 then 1 else 0)

/-- Bitwise xor of the low w bits of two naturals.  Models the Python
expression (a ^ b) & (2 ** w - 1); it agrees with a ^ b whenever both
operands are below 2 ^ w. -/
def xorBits : ℕ → ℕ → ℕ → ℕ
| 0, _, _ => 0
| w + 1, a, b => xorBits w (a / 2) (b / 2) * 2 + (a + b) % 2

/-- Bitwise and of the low w bits of two naturals.  Models the Python
expression a & b for operands below 2 ^ w. -/
def andBits : ℕ → ℕ → ℕ → ℕ
| 0, _, _ => 0
| w + 1, a, b => andBits w (a / 2) (b / 2) * 2 + a % 2 * (b % 2)

theorem orBits_lt (w a b : ℕ) : orBits w a b < 2 ^ w := by
  induction w generalizing a b with
  | zero => simp [orBits]
  | succ w ih =>
    have h := ih (a / 2) (b / 2)
    simp only [orBits, pow_succ]
    split_ifs <;> omega

theorem xorBits_lt (w a b : ℕ) : xorBits w a b < 2 ^ w := by
  induction w generalizing a b with
  | zero => simp [xorBits]
  | succ w ih =>
    have h := ih (a / 2) (b / 2)
    have h2 : (a + b) % 2 < 2 := Nat.mod_lt _ (by norm_num)
    simp only [xorBits, pow_succ]
    omega

theorem andBits_lt (w a b : ℕ) : andBits w a b < 2 ^ w := by
  induction w generalizing a b with
  | zero => simp [andBits]
  | succ w ih =>
    have h := ih (a / 2) (b / 2)
    have h2 : a % 2 * (b % 2) ≤ 1 := by
      rcases Nat.mod_two_eq_zero_or_one a with h' | h' <;>
        rcases Nat.mod_two_eq_zero_or_one b with h'' | h'' <;> simp [h', h'']
    simp only [andBits, pow_succ]
    omega

/-- The bitmap of bitmap.py: a pair of an arbitrary-precision value and a
signed width; a negative width marks a signed bitmap. -/
abbrev Bitmap := ℕ × ℤ

namespace bitmap

/-- Representation invariant of the bitmap module: the value fits in the
magnitude of the width. -/
def WF (bm : Bitmap) : Prop := bm.1 < 2 ^ bm.2.natAbs

instance (bm : Bitmap) : Decidable (WF bm) := by unfold WF; infer_instance

/-- bitmap.new: mask the value to the magnitude of the width.  The Python
masking value & (2 ** abs(size) - 1) on a possibly negative value is the
Euclidean remainder. -/
def new (value : ℤ) (size : ℤ) : Bitmap :=
  ((value % (2 : ℤ) ^ size.natAbs).toNat, size)

/-- bitmap.value: the integral value of a bitmap, decoding the sign bit for
signed widths.  In the source: res = v & (signmask - 1); a set sign bit
yields (signmask - res) * -1. -/
def value (bm : Bitmap) : ℤ :=
  if bm.2 < 0 then
    let signmask := 2 ^ (bm.2.natAbs - 1)
    let res := bm.1 % signmask
    if bm.1 / signmask % 2 = 1 then -((signmask : ℤ) - res) else res
  else bm.1

/-- bitmap.push: append the operand as new least-significant bits.  In the
source: res = (result & rmask) << abs(nbits) | (number & nmask); the two
parts are disjoint, so the or is a sum. -/
def push (a b : Bitmap) : Bitmap :=
  let nb := b.2.natAbs
  (a.1 % 2 ^ a.2.natAbs * 2 ^ nb + b.1 % 2 ^ nb,
   if a.2 < 0 then a.2 - nb else a.2 + nb)

/-- bitmap.insert: append the operand as new most-significant bits.  The
source computes 2 ** rbits - 1 and 2 ** nbits - 1 without taking absolute
values; for a negative width the power is a Python float and the masking
raises a TypeError, so the signed case returns no bitmap. -/
def insert (a b : Bitmap) : Option Bitmap :=
  if a.2 < 0 ∨ b.2 < 0 then none
  else some (b.1 % 2 ^ b.2.toNat * 2 ^ a.2.toNat + a.1 % 2 ^ a.2.toNat, b.2 + a.2)

/-- bitmap.consume: remove some least-significant bits.  The mask and the
sign mask come from the requested count while the shift distance is clamped
to the width, exactly as in the source.  The test res & signmask is rendered
as a bit test by division; res & (signmask - 1) is res % signmask, which for
signmask = 0 is res itself, matching the Python mask -1. -/
def consume (bm : Bitmap) (bits : ℕ) : Bitmap × ℤ :=
  let integermask := 2 ^ bits
  let integersize := if bits > bm.2.natAbs then bm.2.natAbs else bits
  let res := bm.1 % integermask
  if bm.2 < 0 then
    let signmask := integermask / 2
    let extracted : ℤ :=
      if res / signmask % 2 = 1 then ((res % signmask : ℕ) : ℤ) - (signmask : ℤ)
      else ((res % signmask : ℕ) : ℤ)
    ((bm.1 / 2 ^ integersize, bm.2 + integersize), extracted)
  else
    ((bm.1 / 2 ^ integersize, bm.2 - integersize), res)

/-- bitmap.shift: remove some most-significant bits.  The mask
(integermask - 1) << shifty selects the bits in [shifty, shifty + bits), so
(v & mask) >> shifty is v / 2 ^ shifty % integermask, and v & ~mask keeps
the bits below shifty together with the bits at shifty + bits and above. -/
def shift (bm : Bitmap) (bits : ℕ) : Bitmap × ℤ :=
  let integermask := 2 ^ bits
  let bits' := if bits > bm.2.natAbs then bm.2.natAbs else bits
  let shifty := bm.2.natAbs - bits'
  let res := bm.1 / 2 ^ shifty % integermask
  let rem := bm.1 % 2 ^ shifty + bm.1 / (2 ^ shifty * integermask) * (2 ^ shifty * integermask)
  if bm.2 < 0 then
    let signmask := integermask / 2
    let extracted : ℤ :=
      if res / signmask % 2 = 1 then ((res % signmask : ℕ) : ℤ) - (signmask : ℤ)
      else ((res % signmask : ℕ) : ℤ)
    ((rem, -(shifty : ℤ)), extracted)
  else
    ((rem, (shifty : ℤ)), res)

/-- bitmap.add: modular addition preserving width and signedness. -/
def add (bm : Bitmap) (i : ℤ) : Bitmap :=
  (((i + bm.1) % (2 : ℤ) ^ bm.2.natAbs).toNat, bm.2)

/-- bitmap.sub: modular subtraction preserving width and signedness. -/
def sub (bm : Bitmap) (i : ℤ) : Bitmap :=
  (((bm.1 - i) % (2 : ℤ) ^ bm.2.natAbs).toNat, bm.2)

/-- The two's-complement decode used at the top of bitmap.mul, bitmap.div
and bitmap.mod: for a signed width, n = (n - max) when the sign bit is set,
otherwise n & (sf - 1). -/
def toSigned (bm : Bitmap) : ℤ :=
  if bm.2 < 0 then
    let sf := 2 ^ (bm.2.natAbs - 1)
    if bm.1 / sf % 2 = 1 then (bm.1 : ℤ) - 2 ^ bm.2.natAbs else (bm.1 % sf : ℕ)
  else bm.1

/-- bitmap.mul: multiply the decoded value and mask back to the width. -/
def mul (bm : Bitmap) (i : ℤ) : Bitmap :=
  (((toSigned bm * i) % (2 : ℤ) ^ bm.2.natAbs).toNat, bm.2)

/-- bitmap.div: divide the decoded value and mask back to the width.  The
source truncates toward zero through int(float(n) / integer); Int.div is
that truncation (float rounding above 53 bits aside, which no claim here
depends on). -/
def div (bm : Bitmap) (i : ℤ) : Bitmap :=
  ((Int.tdiv (toSigned bm) i % (2 : ℤ) ^ bm.2.natAbs).toNat, bm.2)

/-- bitmap.mod: Python % is flooring (the sign follows the divisor), which
is Int.fmod; the result is masked back to the width. -/
def mod (bm : Bitmap) (i : ℤ) : Bitmap :=
  ((Int.fmod (toSigned bm) i % (2 : ℤ) ^ bm.2.natAbs).toNat, bm.2)

/-- bitmap.grow for a non-negative count: shift the value up and widen,
keeping the sign of the width. -/
def growPos (bm : Bitmap) (count : ℕ) : Bitmap :=
  (bm.1 * 2 ^ count, bm.2 + count * (if bm.2 < 0 then -1 else 1))

/-- bitmap.shrink for a non-negative count: shift the value down and
narrow, keeping the sign of the width. -/
def shrinkPos (bm : Bitmap) (count : ℕ) : Bitmap :=
  (bm.1 / 2 ^ count, bm.2 - count * (if bm.2 < 0 then -1 else 1))

/-- bitmap.grow: a negative count delegates to shrink. -/
def grow (bm : Bitmap) (count : ℤ) : Bitmap :=
  if count < 0 then shrinkPos bm (-count).toNat else growPos bm count.toNat

/-- bitmap.shrink: a negative count delegates to grow. -/
def shrink (bm : Bitmap) (count : ℤ) : Bitmap :=
  if count < 0 then growPos bm (-count).toNat else shrinkPos bm count.toNat

/-- bitmap.set: store a run of bits; positions outside the bitmap raise an
AssertionError.  The returned width is abs(size), as in the source.  The
cleared branch integer & ~mask keeps the bits below position and the bits
at position + count and above. -/
def set (bm : Bitmap) (position : ℕ) (value : Bool) (count : ℕ) : Option Bitmap :=
  if position + count > bm.2.natAbs then none
  else
    let size := bm.2.natAbs
    let mask := (2 ^ count - 1) * 2 ^ position
    if value then some (orBits size bm.1 mask, (size : ℤ))
    else some (bm.1 % 2 ^ position +
               bm.1 / 2 ^ (position + count) * 2 ^ (position + count), (size : ℤ))

/-- bitmap.ror: fixed-width right rotation.  A negative width makes
2 ** b - 1 a Python float (TypeError) and a rotation count beyond the width
makes b - shift a negative shift count (ValueError), so both return no
bitmap.  The source expression is
(((v & 2 ** s - 1) << (b - s)) | (v >> s)) & (2 ** b - 1). -/
def ror (bm : Bitmap) (shift : ℕ) : Option Bitmap :=
  if bm.2 < shift then none
  else
    let b := bm.2.toNat
    some (orBits b (bm.1 % 2 ^ shift * 2 ^ (b - shift)) (bm.1 / 2 ^ shift), bm.2)

/-- bitmap.rol: fixed-width left rotation.  The mask
(2 ** b - 1) ^ (2 ** (b - s) - 1) selects the top s bits, so the shifted
second operand is v / 2 ^ (b - s) % 2 ^ s.  The same failure cases as ror
return no bitmap. -/
def rol (bm : Bitmap) (shift : ℕ) : Option Bitmap :=
  if bm.2 < shift then none
  else
    let b := bm.2.toNat
    some (orBits b (bm.1 * 2 ^ shift) (bm.1 / 2 ^ (b - shift) % 2 ^ shift), bm.2)

/-- bitmap.number is bitmap.value (an alias in the source). -/
def number (bm : Bitmap) : ℤ := value bm

/-- bitmap.size: the magnitude of the width. -/
def size (bm : Bitmap) : ℕ := bm.2.natAbs

end bitmap

example : bitmap.consume ((0x41424344 : ℕ), (32 : ℤ)) 8 = (((0x414243 : ℕ), (24 : ℤ)), (0x44 : ℤ)) := by decide
example : bitmap.consume ((0x414243ff : ℕ), (-32 : ℤ)) 8 = (((0x414243 : ℕ), (-24 : ℤ)), (-1 : ℤ)) := by decide
example : bitmap.shift ((0xff424344 : ℕ), (-32 : ℤ)) 8 = (((0x424344 : ℕ), (-24 : ℤ)), (-1 : ℤ)) := by decide
example : bitmap.shift ((0x41424344 : ℕ), (32 : ℤ)) 8 = (((0x424344 : ℕ), (24 : ℤ)), (0x41 : ℤ)) := by decide
example : bitmap.add ((255 : ℕ), (-8 : ℤ)) 1 = ((0 : ℕ), (-8 : ℤ)) := by decide
example : bitmap.add ((254 : ℕ), (-8 : ℤ)) 1 = ((255 : ℕ), (-8 : ℤ)) := by decide
example : bitmap.value ((255 : ℕ), (-8 : ℤ)) = -1 := by decide
example : bitmap.push ((15 : ℕ), (-4 : ℤ)) ((15 : ℕ), (4 : ℤ)) = ((0xff : ℕ), (-8 : ℤ)) := by decide
example : bitmap.shrink ((0xff : ℕ), (-8 : ℤ)) 4 = ((15 : ℕ), (-4 : ℤ)) := by decide
example : bitmap.grow ((15 : ℕ), (-4 : ℤ)) 4 = ((240 : ℕ), (-8 : ℤ)) := by decide
example : bitmap.mul ((0x40000000 : ℕ), (32 : ℤ)) 4 = ((0 : ℕ), (32 : ℤ)) := by decide
example : bitmap.value (bitmap.div ((0xffffffffffffa251 : ℕ), (-64 : ℤ)) 0xc1) = -124 := by decide
example : bitmap.value (bitmap.mod ((23983 : ℕ), (-64 : ℤ)) (-5)) = -2 := by decide
example : bitmap.value (bitmap.mod ((0x10000000000000000 - 23983 : ℕ), (-64 : ℤ)) (-5)) = -3 := by decide

namespace bitmap

theorem mul_add_lt {x m q p : ℕ} (hx : x < m) (hq : q < p) : x * p + q < m * p := by
  have h1 : (x + 1) * p ≤ m * p := Nat.mul_le_mul_right p hx
  have h2 : x * p + q < (x + 1) * p := by
    have : (x + 1) * p = x * p + p := by ring
    omega
  omega

theorem two_pow_div_two (m : ℕ) : 2 ^ (m + 1) / 2 = 2 ^ m := by
  rw [pow_succ, Nat.mul_div_cancel _ (by norm_num)]

theorem bmod_two_pow (r m : ℕ) (h : r < 2 ^ (m + 1)) :
    Int.bmod (r : ℤ) (2 ^ (m + 1)) =
      if 2 ^ m ≤ r then (r : ℤ) - ((2 ^ (m + 1) : ℕ) : ℤ) else (r : ℤ) := by
  have he : (2 : ℕ) ^ (m + 1) = 2 * 2 ^ m := by rw [pow_succ]; ring
  have e0 : ((2 ^ (m + 1) : ℕ) : ℤ) = 2 * ((2 ^ m : ℕ) : ℤ) := by rw [he]; push_cast; ring
  have e1 : (r : ℤ) % ((2 ^ (m + 1) : ℕ) : ℤ) = r :=
    Int.emod_eq_of_lt (by positivity) (by exact_mod_cast h)
  have e2 : (((2 ^ (m + 1) : ℕ) : ℤ) + 1) / 2 = ((2 ^ m : ℕ) : ℤ) := by
    rw [e0, show (2 * ((2 ^ m : ℕ) : ℤ) + 1) = 1 + ((2 ^ m : ℕ) : ℤ) * 2 by ring,
       Int.add_mul_ediv_right 1 _ (by norm_num : (2 : ℤ) ≠ 0)]
    norm_num
  have hbm : Int.bmod (r : ℤ) (2 ^ (m + 1)) =
      if (r : ℤ) % ((2 ^ (m + 1) : ℕ) : ℤ) < (((2 ^ (m + 1) : ℕ) : ℤ) + 1) / 2
      then (r : ℤ) % ((2 ^ (m + 1) : ℕ) : ℤ)
      else (r : ℤ) % ((2 ^ (m + 1) : ℕ) : ℤ) - ((2 ^ (m + 1) : ℕ) : ℤ) := Int.bmod_def _ _
  rw [hbm, e1, e2]
  split_ifs <;> omega

/-- Behaviour of bitmap.consume when the requested count fits in the width:
the low n bits are removed, and for a signed source the extracted value is
the balanced (two-complement) residue of those bits. -/
theorem consume_eq_of_le (bm : Bitmap) (n : ℕ) (hn : n ≤ bm.2.natAbs) :
    consume bm n =
      ((bm.1 / 2 ^ n, if bm.2 < 0 then bm.2 + n else bm.2 - n),
       if bm.2 < 0 then Int.bmod ((bm.1 % 2 ^ n : ℕ) : ℤ) (2 ^ n)
       else ((bm.1 % 2 ^ n : ℕ) : ℤ)) := by
  have hif : (if n > bm.2.natAbs then bm.2.natAbs else n) = n := if_neg (by omega)
  by_cases hs : bm.2 < 0
  · simp only [consume, hif, if_pos hs]
    refine Prod.ext rfl ?_
    simp only
    rcases n with _ | m
    · norm_num [Int.bmod_def, Nat.mod_one]
    · rw [two_pow_div_two m]
      set r := bm.1 % 2 ^ (m + 1) with hr
      have hrlt : r < 2 ^ (m + 1) := Nat.mod_lt _ (Nat.two_pow_pos _)
      have hpow : (2 : ℕ) ^ (m + 1) = 2 * 2 ^ m := by rw [pow_succ]; ring
      rw [bmod_two_pow r m hrlt]
      rcases le_or_lt (2 ^ m) r with hge | hlt
      · have hdiv : r / 2 ^ m = 1 := by apply Nat.div_eq_of_lt_le <;> omega
        have hmod : r % 2 ^ m = r - 2 ^ m := by
          rw [Nat.mod_eq_sub_mod hge, Nat.mod_eq_of_lt (by omega)]
        rw [hdiv, hmod, if_pos rfl, if_pos hge]
        omega
      · have hdiv : r / 2 ^ m = 0 := Nat.div_eq_of_lt hlt
        have hmod : r % 2 ^ m = r := Nat.mod_eq_of_lt hlt
        rw [hdiv, hmod, if_neg (by norm_num), if_neg (by omega)]
  · simp only [consume, hif, if_neg hs]

/-- Behaviour of bitmap.consume when the requested count exceeds the width:
the removal is clamped (the bitmap is emptied) but the sign mask is taken
from the requested count, so the raw value comes back unchanged. -/
theorem consume_eq_of_gt (bm : Bitmap) (n : ℕ) (h : WF bm) (hn : bm.2.natAbs < n) :
    consume bm n = ((0, 0), (bm.1 : ℤ)) := by
  have hif : (if n > bm.2.natAbs then bm.2.natAbs else n) = bm.2.natAbs := if_pos (by omega)
  have hlt : bm.1 < 2 ^ n := lt_of_lt_of_le h (Nat.pow_le_pow_right (by norm_num) (by omega))
  have hres : bm.1 % 2 ^ n = bm.1 := Nat.mod_eq_of_lt hlt
  have hdiv : bm.1 / 2 ^ bm.2.natAbs = 0 := Nat.div_eq_of_lt h
  by_cases hs : bm.2 < 0
  · simp only [consume, hif, if_pos hs, hres, hdiv]
    refine Prod.ext (Prod.ext rfl (by show bm.2 + (bm.2.natAbs : ℤ) = 0; omega)) ?_
    simp only
    rcases n with _ | m
    · omega
    · rw [two_pow_div_two m]
      have hsm : bm.1 < 2 ^ m := lt_of_lt_of_le h (Nat.pow_le_pow_right (by norm_num) (by omega))
      rw [Nat.div_eq_of_lt hsm, Nat.mod_eq_of_lt hsm, if_neg (by norm_num)]
  · simp only [consume, hif, if_neg hs, hres, hdiv]
    refine Prod.ext (Prod.ext rfl (by show bm.2 - (bm.2.natAbs : ℤ) = 0; omega)) rfl

end bitmap

namespace bitmap

theorem value_of_nonneg (b : Bitmap) (h0 : ¬ b.2 < 0) : value b = b.1 := by
  simp [value, h0]

/-- For a well-formed signed bitmap, the decode performed by bitmap.value is
the balanced residue of the raw value. -/
theorem value_eq_bmod (b : Bitmap) (hb : WF b) (hs : b.2 < 0) :
    value b = Int.bmod (b.1 : ℤ) (2 ^ b.2.natAbs) := by
  rcases hA : b.2.natAbs with _ | m
  · omega
  · have hlt : b.1 < 2 ^ (m + 1) := by rw [← hA]; exact hb
    have hpow : (2 : ℕ) ^ (m + 1) = 2 * 2 ^ m := by rw [pow_succ]; ring
    rw [bmod_two_pow b.1 m hlt]
    simp only [value, if_pos hs, hA, Nat.add_sub_cancel]
    rcases le_or_lt (2 ^ m) b.1 with hge | hlt2
    · have hdiv : b.1 / 2 ^ m = 1 := by apply Nat.div_eq_of_lt_le <;> omega
      have hmod : b.1 % 2 ^ m = b.1 - 2 ^ m := by
        rw [Nat.mod_eq_sub_mod hge, Nat.mod_eq_of_lt (by omega)]
      rw [hdiv, hmod, if_pos rfl, if_pos hge]
      omega
    · have hdiv : b.1 / 2 ^ m = 0 := Nat.div_eq_of_lt hlt2
      have hmod : b.1 % 2 ^ m = b.1 := Nat.mod_eq_of_lt hlt2
      rw [hdiv, hmod, if_neg (by norm_num), if_neg (by omega)]

/-- Behaviour of bitmap.shift on a well-formed unsigned bitmap when the
requested count fits in the width. -/
theorem shift_eq_of_le (bm : Bitmap) (h : WF bm) (h0 : ¬ bm.2 < 0) (n : ℕ)
    (hn : n ≤ bm.2.natAbs) :
    shift bm n = ((bm.1 % 2 ^ (bm.2.natAbs - n), ((bm.2.natAbs - n : ℕ) : ℤ)),
                  ((bm.1 / 2 ^ (bm.2.natAbs - n) % 2 ^ n : ℕ) : ℤ)) := by
  have hif : (if n > bm.2.natAbs then bm.2.natAbs else n) = n := if_neg (by omega)
  simp only [shift, hif, if_neg h0]
  have hpow : 2 ^ (bm.2.natAbs - n) * 2 ^ n = 2 ^ bm.2.natAbs := by
    rw [← pow_add]; congr 1; omega
  rw [hpow, Nat.div_eq_of_lt h]
  simp

end bitmap

/-- Claim C5, counterexample.  The spec says that a count larger than the
width is clamped to the width, which for the signed bitmap (8, -4) would
make consume with count 8 behave like consume with count 4 and sign-extend
the four available bits to -8.  The code builds the sign mask from the
requested count instead and returns the raw value 8. -/
theorem C5_clamp_counterexample :
    bitmap.consume ((8 : ℕ), (-4 : ℤ)) 8 = (((0 : ℕ), (0 : ℤ)), (8 : ℤ)) ∧
    bitmap.consume ((8 : ℕ), (-4 : ℤ)) 4 = (((0 : ℕ), (0 : ℤ)), (-8 : ℤ)) := by
  decide

/-- Claim C5, amended.  For every well-formed bitmap and non-negative count
n, consume removes the n least-significant bits and returns the pair of the
remaining bitmap and the extracted value, sign-extending the extracted
value (balanced residue) when the source is signed and n fits the width;
when n exceeds the width no error is raised and the number of removed bits
is clamped to the width (the remaining bitmap is emptied), but the sign
mask is still built from the requested n, so the extracted value comes back
as the raw (non-negative) bit content instead of the width-clamped
sign-extension. -/
theorem C5_consume_behaviour (bm : Bitmap) (h : bitmap.WF bm) (n : ℕ) :
    (n ≤ bm.2.natAbs →
      bitmap.consume bm n =
        ((bm.1 / 2 ^ n, if bm.2 < 0 then bm.2 + n else bm.2 - n),
         if bm.2 < 0 then Int.bmod ((bm.1 % 2 ^ n : ℕ) : ℤ) (2 ^ n)
         else ((bm.1 % 2 ^ n : ℕ) : ℤ))) ∧
    (bm.2.natAbs < n → bitmap.consume bm n = ((0, 0), (bm.1 : ℤ))) :=
  ⟨fun hn => bitmap.consume_eq_of_le bm n hn, fun hn => bitmap.consume_eq_of_gt bm n h hn⟩

theorem C5_consume_behaviour_witness :
    bitmap.consume ((12 : ℕ), (-4 : ℤ)) 2 = (((3 : ℕ), (-2 : ℤ)), (0 : ℤ)) ∧
    bitmap.consume ((12 : ℕ), (-4 : ℤ)) 7 = (((0 : ℕ), (0 : ℤ)), (12 : ℤ)) := by
  refine ⟨?_, ?_⟩
  · rw [(C5_consume_behaviour ((12 : ℕ), (-4 : ℤ)) (by decide) 2).1 (by decide)]
    decide
  · rw [(C5_consume_behaviour ((12 : ℕ), (-4 : ℤ)) (by decide) 7).2 (by decide)]
    decide

/-- Claim C3, counterexample.  The round trip is claimed for either
signedness, but bitmap.insert applied to a well-formed signed bitmap raises
a TypeError (2 ** rbits is a Python float for a negative width), so the
shift-insert round trip cannot even start. -/
theorem C3_insert_signed_counterexample :
    bitmap.insert ((0 : ℕ), (-1 : ℤ)) ((0 : ℕ), (1 : ℤ)) = none ∧
    bitmap.WF ((0 : ℕ), (-1 : ℤ)) ∧ bitmap.WF ((0 : ℕ), (1 : ℤ)) := by
  decide

/-- Claim C3, amended.  For well-formed bitmaps a and b of equal signedness,
consuming back widthOf(b) bits from push(a, b) returns a together with the
value of b (sign-extended for signed bitmaps); the insert-then-shift round
trip additionally requires the operands to be unsigned, because insert
raises a TypeError on any signed operand. -/
theorem C3_round_trip (a b : Bitmap) (ha : bitmap.WF a) (hb : bitmap.WF b)
    (hsgn : a.2 < 0 ↔ b.2 < 0) :
    bitmap.consume (bitmap.push a b) b.2.natAbs = (a, bitmap.value b) ∧
    (¬ a.2 < 0 →
      (bitmap.insert a b).map (fun r => bitmap.shift r b.2.natAbs)
        = some (a, bitmap.value b)) := by
  have hA : a.1 % 2 ^ a.2.natAbs = a.1 := Nat.mod_eq_of_lt ha
  have hB : b.1 % 2 ^ b.2.natAbs = b.1 := Nat.mod_eq_of_lt hb
  have hposn : 0 < 2 ^ b.2.natAbs := Nat.two_pow_pos _
  constructor
  · have hpush : bitmap.push a b =
        (a.1 * 2 ^ b.2.natAbs + b.1, if a.2 < 0 then a.2 - b.2.natAbs else a.2 + b.2.natAbs) := by
      simp only [bitmap.push, hA, hB]
    rw [hpush]
    have hnat : (if a.2 < 0 then a.2 - (b.2.natAbs : ℤ) else a.2 + b.2.natAbs).natAbs
        = a.2.natAbs + b.2.natAbs := by split_ifs <;> omega
    rw [bitmap.consume_eq_of_le _ _ (by rw [hnat]; omega)]
    have hdivP : (a.1 * 2 ^ b.2.natAbs + b.1) / 2 ^ b.2.natAbs = a.1 := by
      rw [mul_comm a.1 (2 ^ b.2.natAbs), Nat.mul_add_div hposn, Nat.div_eq_of_lt hb]
      omega
    have hmodP : (a.1 * 2 ^ b.2.natAbs + b.1) % 2 ^ b.2.natAbs = b.1 := by
      rw [mul_comm a.1 (2 ^ b.2.natAbs), Nat.mul_add_mod, hB]
    by_cases hsa : a.2 < 0
    · have hsb : b.2 < 0 := hsgn.mp hsa
      rw [if_pos hsa]
      have hw : a.2 - (b.2.natAbs : ℤ) < 0 := by omega
      rw [if_pos hw, if_pos hw, hdivP, hmodP]
      refine Prod.ext (Prod.ext rfl (by show a.2 - (b.2.natAbs : ℤ) + b.2.natAbs = a.2; ring)) ?_
      rw [bitmap.value_eq_bmod b hb hsb]
    · have hsb : ¬ b.2 < 0 := fun hcon => hsa (hsgn.mpr hcon)
      rw [if_neg hsa]
      have hw : ¬ a.2 + (b.2.natAbs : ℤ) < 0 := by omega
      rw [if_neg hw, if_neg hw, hdivP, hmodP]
      refine Prod.ext (Prod.ext rfl (by show a.2 + (b.2.natAbs : ℤ) - b.2.natAbs = a.2; ring)) ?_
      rw [bitmap.value_of_nonneg b hsb]
  · intro h0
    have hsb : ¬ b.2 < 0 := fun hcon => h0 (hsgn.mpr hcon)
    have hcond : ¬ (a.2 < 0 ∨ b.2 < 0) := by tauto
    have ht1 : a.2.toNat = a.2.natAbs := by omega
    have ht2 : b.2.toNat = b.2.natAbs := by omega
    simp only [bitmap.insert, if_neg hcond, Option.map_some', ht1, ht2, hA, hB]
    refine congrArg some ?_
    have hQnat : ((b.2 + a.2 : ℤ)).natAbs = b.2.natAbs + a.2.natAbs := by omega
    have hQWF : bitmap.WF (b.1 * 2 ^ a.2.natAbs + a.1, b.2 + a.2) := by
      show b.1 * 2 ^ a.2.natAbs + a.1 < 2 ^ ((b.2 + a.2 : ℤ)).natAbs
      rw [hQnat, pow_add]
      exact bitmap.mul_add_lt hb ha
    rw [bitmap.shift_eq_of_le _ hQWF (by show ¬ b.2 + a.2 < 0; omega) _ (by omega)]
    have hsub : ((b.2 + a.2 : ℤ)).natAbs - b.2.natAbs = a.2.natAbs := by omega
    rw [hsub]
    have hmodQ : (b.1 * 2 ^ a.2.natAbs + a.1) % 2 ^ a.2.natAbs = a.1 := by
      rw [mul_comm b.1 (2 ^ a.2.natAbs), Nat.mul_add_mod, hA]
    have hdivQ : (b.1 * 2 ^ a.2.natAbs + a.1) / 2 ^ a.2.natAbs = b.1 := by
      rw [mul_comm b.1 (2 ^ a.2.natAbs), Nat.mul_add_div (Nat.two_pow_pos _), Nat.div_eq_of_lt ha]
      omega
    rw [hmodQ, hdivQ, hB]
    refine Prod.ext (Prod.ext rfl (by show ((a.2.natAbs : ℤ)) = a.2; omega)) ?_
    rw [bitmap.value_of_nonneg b hsb]

theorem C3_round_trip_witness :
    bitmap.consume (bitmap.push ((5 : ℕ), (4 : ℤ)) ((6 : ℕ), (3 : ℤ))) (3 : ℤ).natAbs
      = (((5 : ℕ), (4 : ℤ)), bitmap.value ((6 : ℕ), (3 : ℤ))) ∧
    (bitmap.insert ((5 : ℕ), (4 : ℤ)) ((6 : ℕ), (3 : ℤ))).map
        (fun r => bitmap.shift r (3 : ℤ).natAbs)
      = some (((5 : ℕ), (4 : ℤ)), bitmap.value ((6 : ℕ), (3 : ℤ))) :=
  ⟨(C3_round_trip ((5 : ℕ), (4 : ℤ)) ((6 : ℕ), (3 : ℤ)) (by decide) (by decide) (by decide)).1,
   (C3_round_trip ((5 : ℕ), (4 : ℤ)) ((6 : ℕ), (3 : ℤ)) (by decide) (by decide) (by decide)).2
     (by decide)⟩

namespace bitmap

theorem maskWF (x : ℤ) (w : ℤ) : WF ((x % (2 : ℤ) ^ w.natAbs).toNat, w) := by
  show (x % (2 : ℤ) ^ w.natAbs).toNat < 2 ^ w.natAbs
  have hpos : (0 : ℤ) < (2 : ℤ) ^ w.natAbs := by positivity
  have h1 := Int.emod_nonneg x (ne_of_gt hpos)
  have h2 := Int.emod_lt_of_pos x hpos
  have h3 : (((2 : ℕ) ^ w.natAbs : ℕ) : ℤ) = (2 : ℤ) ^ w.natAbs := by push_cast; ring
  omega

theorem growPos_WF (bm : Bitmap) (h : WF bm) (c : ℕ) : WF (growPos bm c) := by
  show bm.1 * 2 ^ c < 2 ^ (bm.2 + c * (if bm.2 < 0 then -1 else 1)).natAbs
  have hnat : (bm.2 + (c : ℤ) * (if bm.2 < 0 then -1 else 1)).natAbs = bm.2.natAbs + c := by
    split_ifs <;> omega
  rw [hnat, pow_add]
  exact (Nat.mul_lt_mul_right (Nat.two_pow_pos c)).mpr h

theorem shrinkPos_WF (bm : Bitmap) (h : WF bm) (c : ℕ) : WF (shrinkPos bm c) := by
  show bm.1 / 2 ^ c < 2 ^ (bm.2 - c * (if bm.2 < 0 then -1 else 1)).natAbs
  rcases le_or_lt c bm.2.natAbs with hc | hc
  · have hnat : (bm.2 - (c : ℤ) * (if bm.2 < 0 then -1 else 1)).natAbs = bm.2.natAbs - c := by
      split_ifs <;> omega
    rw [hnat, Nat.div_lt_iff_lt_mul (Nat.two_pow_pos c), ← pow_add]
    calc bm.1 < 2 ^ bm.2.natAbs := h
    _ ≤ 2 ^ (bm.2.natAbs - c + c) := Nat.pow_le_pow_right (by norm_num) (by omega)
  · have hz : bm.1 / 2 ^ c = 0 :=
      Nat.div_eq_of_lt (lt_of_lt_of_le h (Nat.pow_le_pow_right (by norm_num) (by omega)))
    rw [hz]
    exact Nat.two_pow_pos _

end bitmap

/-- Claim C6, counterexample.  The well-formed unsigned empty bitmap (0, 0)
is a valid input, but the default single-bit right rotation raises a
ValueError (0 << (0 - 1) is a negative shift count in Python) instead of
returning a bitmap. -/
theorem C6_ror_counterexample :
    bitmap.WF ((0 : ℕ), (0 : ℤ)) ∧ bitmap.ror ((0 : ℕ), (0 : ℤ)) 1 = none := by
  decide

/-- Claim C6, amended.  Every bitmap operation of the list that actually
returns a bitmap returns one satisfying 0 <= value < 2 ^ |width|, for every
well-formed input of either signedness; however insert raises a TypeError
on a signed operand, rol and ror raise on a signed operand or on a rotation
count exceeding the width, set raises on an out-of-range position, and div
and mod raise on a zero divisor, so for those operations the invariant
holds conditionally on a bitmap being returned at all. -/
theorem C6_invariant (a b : Bitmap) (ha : bitmap.WF a) (hb : bitmap.WF b)
    (i z s : ℤ) (p c n : ℕ) :
    bitmap.WF (bitmap.new i s) ∧
    bitmap.WF (bitmap.push a b) ∧
    (∀ r, bitmap.insert a b = some r → bitmap.WF r) ∧
    bitmap.WF (bitmap.grow a z) ∧
    bitmap.WF (bitmap.shrink a z) ∧
    (∀ v r, bitmap.set a p v c = some r → bitmap.WF r) ∧
    bitmap.WF (bitmap.add a i) ∧
    bitmap.WF (bitmap.sub a i) ∧
    bitmap.WF (bitmap.mul a i) ∧
    (i ≠ 0 → bitmap.WF (bitmap.div a i) ∧ bitmap.WF (bitmap.mod a i)) ∧
    (∀ r, bitmap.rol a n = some r → bitmap.WF r) ∧
    (∀ r, bitmap.ror a n = some r → bitmap.WF r) ∧
    bitmap.WF (bitmap.consume a n).1 ∧
    bitmap.WF (bitmap.shift a n).1 := by
  refine ⟨bitmap.maskWF i s, ?_, ?_, ?_, ?_, ?_, bitmap.maskWF _ a.2, bitmap.maskWF _ a.2,
    bitmap.maskWF _ a.2, fun _ => ⟨bitmap.maskWF _ a.2, bitmap.maskWF _ a.2⟩, ?_, ?_, ?_, ?_⟩
  · -- push
    show _ < 2 ^ ((if a.2 < 0 then a.2 - (b.2.natAbs : ℤ) else a.2 + b.2.natAbs)).natAbs
    have hnat : ((if a.2 < 0 then a.2 - (b.2.natAbs : ℤ) else a.2 + b.2.natAbs)).natAbs
        = a.2.natAbs + b.2.natAbs := by split_ifs <;> omega
    rw [hnat, pow_add]
    exact bitmap.mul_add_lt (Nat.mod_lt _ (Nat.two_pow_pos _)) (Nat.mod_lt _ (Nat.two_pow_pos _))
  · -- insert
    intro r hr
    by_cases hc : a.2 < 0 ∨ b.2 < 0
    · rw [bitmap.insert, if_pos hc] at hr
      cases hr
    · rw [bitmap.insert, if_neg hc] at hr
      obtain rfl : _ = r := Option.some_injective _ hr
      push_neg at hc
      show _ < 2 ^ ((b.2 + a.2 : ℤ)).natAbs
      have hnat : ((b.2 + a.2 : ℤ)).natAbs = b.2.toNat + a.2.toNat := by omega
      rw [hnat, pow_add]
      exact bitmap.mul_add_lt (Nat.mod_lt _ (Nat.two_pow_pos _)) (Nat.mod_lt _ (Nat.two_pow_pos _))
  · -- grow
    rw [bitmap.grow]
    split_ifs
    · exact bitmap.shrinkPos_WF a ha _
    · exact bitmap.growPos_WF a ha _
  · -- shrink
    rw [bitmap.shrink]
    split_ifs
    · exact bitmap.growPos_WF a ha _
    · exact bitmap.shrinkPos_WF a ha _
  · -- set
    intro v r hr
    by_cases hc : p + c > a.2.natAbs
    · rw [bitmap.set, if_pos hc] at hr
      cases hr
    · cases v
      · rw [bitmap.set, if_neg hc, if_neg (by simp)] at hr
        obtain rfl : _ = r := Option.some_injective _ hr
        show a.1 % 2 ^ p + a.1 / 2 ^ (p + c) * 2 ^ (p + c) < 2 ^ (((a.2.natAbs : ℕ) : ℤ)).natAbs
        rw [Int.natAbs_ofNat]
        have e := Nat.mod_add_div' a.1 (2 ^ (p + c))
        have hle : a.1 % 2 ^ p ≤ a.1 % 2 ^ (p + c) := by
          rw [← Nat.mod_mod_of_dvd a.1 (pow_dvd_pow 2 (Nat.le_add_right p c))]
          exact Nat.mod_le _ _
        have hwf : a.1 < 2 ^ a.2.natAbs := ha
        omega
      · rw [bitmap.set, if_neg hc, if_pos rfl] at hr
        obtain rfl : _ = r := Option.some_injective _ hr
        show orBits a.2.natAbs a.1 ((2 ^ c - 1) * 2 ^ p) < 2 ^ (((a.2.natAbs : ℕ) : ℤ)).natAbs
        rw [Int.natAbs_ofNat]
        exact orBits_lt _ _ _
  · -- rol
    intro r hr
    by_cases hc : a.2 < (n : ℤ)
    · rw [bitmap.rol, if_pos hc] at hr
      cases hr
    · rw [bitmap.rol, if_neg hc] at hr
      obtain rfl : _ = r := Option.some_injective _ hr
      show orBits a.2.toNat _ _ < 2 ^ a.2.natAbs
      rw [show a.2.natAbs = a.2.toNat by omega]
      exact orBits_lt _ _ _
  · -- ror
    intro r hr
    by_cases hc : a.2 < (n : ℤ)
    · rw [bitmap.ror, if_pos hc] at hr
      cases hr
    · rw [bitmap.ror, if_neg hc] at hr
      obtain rfl : _ = r := Option.some_injective _ hr
      show orBits a.2.toNat _ _ < 2 ^ a.2.natAbs
      rw [show a.2.natAbs = a.2.toNat by omega]
      exact orBits_lt _ _ _
  · -- consume
    rcases le_or_lt n a.2.natAbs with hn | hn
    · rw [bitmap.consume_eq_of_le a n hn]
      show a.1 / 2 ^ n < 2 ^ ((if a.2 < 0 then a.2 + (n : ℤ) else a.2 - n)).natAbs
      have hnat : ((if a.2 < 0 then a.2 + (n : ℤ) else a.2 - n)).natAbs = a.2.natAbs - n := by
        split_ifs <;> omega
      rw [hnat, Nat.div_lt_iff_lt_mul (Nat.two_pow_pos n), ← pow_add]
      calc a.1 < 2 ^ a.2.natAbs := ha
      _ ≤ 2 ^ (a.2.natAbs - n + n) := Nat.pow_le_pow_right (by norm_num) (by omega)
    · rw [bitmap.consume_eq_of_gt a n ha hn]
      show (0 : ℕ) < 2 ^ (0 : ℤ).natAbs
      norm_num
  · -- shift
    set t := if n > a.2.natAbs then a.2.natAbs else n with ht
    have ht1 : t ≤ a.2.natAbs := by rw [ht]; split_ifs <;> omega
    have hterm : a.1 / (2 ^ (a.2.natAbs - t) * 2 ^ n) = 0 := by
      apply Nat.div_eq_of_lt
      calc a.1 < 2 ^ a.2.natAbs := ha
      _ ≤ 2 ^ (a.2.natAbs - t) * 2 ^ n := by
        rw [← pow_add]
        apply Nat.pow_le_pow_right (by norm_num)
        rw [ht]
        split_ifs <;> omega
    simp only [bitmap.shift, ← ht, hterm, Nat.zero_mul, Nat.add_zero]
    have h1 : a.1 % 2 ^ (a.2.natAbs - t) < 2 ^ ((-((a.2.natAbs - t : ℕ) : ℤ))).natAbs := by
      rw [show ((-((a.2.natAbs - t : ℕ) : ℤ))).natAbs = a.2.natAbs - t by omega]
      exact Nat.mod_lt _ (Nat.two_pow_pos _)
    have h2 : a.1 % 2 ^ (a.2.natAbs - t) < 2 ^ (((a.2.natAbs - t : ℕ) : ℤ)).natAbs := by
      rw [Int.natAbs_ofNat]
      exact Nat.mod_lt _ (Nat.two_pow_pos _)
    split_ifs <;> first | exact h1 | exact h2

theorem C6_invariant_witness :
    bitmap.WF (bitmap.push ((5 : ℕ), (4 : ℤ)) ((6 : ℕ), (3 : ℤ))) ∧
    bitmap.WF (bitmap.add ((5 : ℕ), (4 : ℤ)) 7) ∧
    bitmap.WF (bitmap.consume ((5 : ℕ), (4 : ℤ)) 3).1 := by
  have h := C6_invariant ((5 : ℕ), (4 : ℤ)) ((6 : ℕ), (3 : ℤ)) (by decide) (by decide)
    7 2 (-9) 1 2 3
  exact ⟨h.2.1, h.2.2.2.2.2.2.1, h.2.2.2.2.2.2.2.2.2.2.2.2.1⟩

/-! ## Provider layer: the in-memory string provider (provider.py) -/

inductive ProviderErr where
  | userError
  | consumeError
deriving DecidableEq

/-- provider.string.consume.  A negative amount raises a UserError; a zero
amount returns the empty string; an offset at or past the end raises a
ConsumeError; otherwise the slice data[offset : min(offset + amount,
len(data))] is returned, and the cursor advances only when the slice has
the full requested length.  The result is the returned bytes together with
the provider offset after the call. -/
def stringConsume (data : List ℕ) (offset : ℕ) (amount : ℤ) :
    Except ProviderErr (List ℕ × ℕ) :=
  if amount < 0 then .error .userError
  else if amount = 0 then .ok ([], offset)
  else if offset ≥ data.length then .error .consumeError
  else if (data.drop offset).take (min (offset + amount.toNat) data.length - offset) = []
       ∧ 0 < amount then .error .consumeError
  else if ((data.drop offset).take (min (offset + amount.toNat) data.length - offset)).length
       = amount.toNat then
    .ok ((data.drop offset).take (min (offset + amount.toNat) data.length - offset),
         offset + amount.toNat)
  else
    .ok ((data.drop offset).take (min (offset + amount.toNat) data.length - offset), offset)

example : stringConsume [1, 2, 3] 0 2 = .ok ([1, 2], 2) := rfl
example : stringConsume [1, 2, 3] 3 1 = .error .consumeError := rfl

/-- Claim C4, counterexample.  Over the two-byte buffer AB, consume(5)
returns just the two available bytes and raises nothing: the provider
silently returns a truncated byte string (and does not advance the
cursor), contradicting the claim that fewer-than-amount bytes always raise
a short-read error. -/
theorem C4_truncation_counterexample :
    stringConsume [65, 66] 0 5 = .ok ([65, 66], 0) ∧
    ([65, 66] : List ℕ).length ≠ (5 : ℤ).toNat :=
  ⟨rfl, by decide⟩

/-- Claim C4, amended.  string.consume raises ConsumeError only when no
byte at all is available at the current offset (and UserError on a negative
amount); when at least one byte is available it returns min(amount,
available) bytes without raising, advancing the cursor only on a full
read.  A partially available range is therefore returned truncated and
silently. -/
theorem C4_consume_spec (data : List ℕ) (offset : ℕ) (amount : ℤ) :
    (0 < amount → offset < data.length →
      ∃ res newOff, stringConsume data offset amount = Except.ok (res, newOff) ∧
        res.length = min amount.toNat (data.length - offset) ∧
        (newOff = if amount.toNat ≤ data.length - offset then offset + amount.toNat
                  else offset)) ∧
    (0 < amount → data.length ≤ offset →
      stringConsume data offset amount = Except.error ProviderErr.consumeError) ∧
    (amount < 0 → stringConsume data offset amount = Except.error ProviderErr.userError) ∧
    (amount = 0 → stringConsume data offset amount = Except.ok ([], offset)) := by
  refine ⟨?_, ?_, ?_, ?_⟩
  · intro ha hoff
    have hlen : ((data.drop offset).take (min (offset + amount.toNat) data.length - offset)).length
        = min amount.toNat (data.length - offset) := by
      rw [List.length_take, List.length_drop]
      omega
    have hne : ¬((data.drop offset).take (min (offset + amount.toNat) data.length - offset) = []
        ∧ 0 < amount) := by
      rintro ⟨hnil, -⟩
      rw [hnil] at hlen
      simp only [List.length_nil] at hlen
      omega
    rw [stringConsume, if_neg (by omega), if_neg (by omega), if_neg (by omega), if_neg hne]
    by_cases hf : ((data.drop offset).take
        (min (offset + amount.toNat) data.length - offset)).length = amount.toNat
    · rw [if_pos hf]
      exact ⟨_, _, rfl, hlen, by rw [if_pos (by omega)]⟩
    · rw [if_neg hf]
      exact ⟨_, _, rfl, hlen, by rw [if_neg (by omega)]⟩
  · intro ha hoff
    rw [stringConsume, if_neg (by omega), if_neg (by omega), if_pos (by omega)]
  · intro ha
    rw [stringConsume, if_pos ha]
  · intro ha
    rw [stringConsume, if_neg (by omega), if_pos ha]

theorem C4_consume_spec_witness :
    (∃ res newOff, stringConsume [7, 8, 9] 1 5 = Except.ok (res, newOff) ∧
      res.length = min (5 : ℤ).toNat (([7, 8, 9] : List ℕ).length - 1) ∧
      (newOff = if (5 : ℤ).toNat ≤ ([7, 8, 9] : List ℕ).length - 1 then 1 + (5 : ℤ).toNat
                else 1)) ∧
    stringConsume [7, 8, 9] 5 2 = Except.error ProviderErr.consumeError :=
  ⟨(C4_consume_spec [7, 8, 9] 1 5).1 (by decide) (by decide),
   (C4_consume_spec [7, 8, 9] 5 2).2.1 (by decide) (by decide)⟩

/-! ## macheap.py: the checksummed free-list pointer ptr_union -/

namespace macheap

/-- bitmap.splitter with a chunk size of 8 bits: consume bytes from the
least-significant end while at least 8 bits remain, then yield any
non-empty leftover.  The fuel bounds the number of chunks. -/
def splitter8 : ℕ → Bitmap → List Bitmap
  | 0, _ => []
  | fuel + 1, bm =>
    if bm.2 < 8 then (if 0 < bm.2 then [bm] else [])
    else ((bitmap.consume bm 8).2.toNat, (8 : ℤ)) :: splitter8 fuel (bitmap.consume bm 8).1

/-- ptr_union.generate_checksum: mask the value to w bits, split it into
bytes, fold bitmap.add over their values starting from an 8-bit zero
accumulator (bitmap.split reverses the splitter stream first), and keep
the low 4 bits of the result. -/
def generate_checksum (w : ℕ) (ptr : ℕ) : ℕ :=
  let pu := bitmap.new ptr w
  let parts := (splitter8 (w / 8 + 1) pu).reverse
  let res := parts.foldl (fun acc bmp => bitmap.add acc (bitmap.number bmp)) (bitmap.new 0 8)
  (bitmap.number res).toNat % 16

/-- ptr_union.encode for a w-bit pointer value pu under the zone cookie:
checksum the cookie-xored pointer, rotate the pointer left by 4, or the
checksum into the low nibble, and rotate right by 4.  The Option records
that the bitmap rotations raise on widths below 4. -/
def encode (w : ℕ) (cookie : ℕ) (pu : ℕ) : Option ℕ := do
  let csum := generate_checksum w (xorBits w pu cookie)
  let t ← bitmap.rol (bitmap.new pu w) 4
  let cs ← bitmap.ror (bitmap.new (orBits w (bitmap.number t).toNat csum) (w : ℤ)) 4
  return (bitmap.number cs).toNat

/-- ptr_union.decode for a stored w-bit value: rotate left by 4, clear the
low nibble to obtain the pointer, and compare the low nibble against the
checksum of the cookie-xored pointer.  The result is the decoded pointer
value together with the mismatch flag that the source merely logs as a
warning (it never raises). -/
def decode (w : ℕ) (cookie : ℕ) (stored : ℕ) : Option (ℕ × Bool) := do
  let t ← bitmap.rol (bitmap.new stored w) 4
  let nt := (bitmap.number t).toNat
  let ptr := nt - nt % 16
  let cs := xorBits w ptr cookie
  return (ptr, decide (nt % 16 ≠ generate_checksum w cs))

end macheap

set_option maxRecDepth 10000 in
/-- Claim C2: evaluation of the code at the failing input of the spec
example.  With cookie 0xAB and pointer 0x1122334455667788 the encode stores
the checksum nibble into the top four bits of the unshifted pointer, while
decode expects the libmalloc layout (address shifted right by 4 with the
checksum on top), so decoding the encoded form yields
0x1223344556677880 with the checksum comparison failing, not the original
pointer with a clean checksum. -/
theorem C2_ptr_union_round_trip_fails :
    macheap.encode 64 0xAB 0x1122334455667788 = some 0xF122334455667788 ∧
    macheap.decode 64 0xAB 0xF122334455667788 = some (0x1223344556677880, true) ∧
    (0x1223344556677880 : ℕ) ≠ 0x1122334455667788 := by
  decide

/-! ## dynamic.py: the align padding factory -/

/-- Python bitwise and of an arbitrary integer with a non-negative mask m:
two-complement semantics, computed over the low m + 1 bits (every bit of m
lies below 2 ^ (m + 1)). -/
def pyAndNonneg (x : ℤ) (m : ℕ) : ℕ :=
  andBits (m + 1) ((x % (2 : ℤ) ^ (m + 1)).toNat) m

/-- dynamic.align(size).blocksize for a field at the given offset (the
source computes the offset as the parent offset plus the blocksizes of the
preceding siblings): the Python expression (-offset) & (size - 1). -/
def alignBlocksize (size : ℤ) (offset : ℤ) : ℤ :=
  pyAndNonneg (-offset) (size - 1).toNat

example : alignBlocksize 4 5 = 3 := by decide
example : alignBlocksize 8 16 = 0 := by decide

/-- Claim C9, counterexample.  For the non-power-of-two alignment 3 at
offset 2 the code computes (-2) & 2 = 2, while (-2) mod 3 = 1: the claimed
formula fails for alignments that are not powers of two. -/
theorem C9_align_counterexample :
    alignBlocksize 3 2 = 2 ∧ (-2 : ℤ) % 3 = 1 ∧ (2 : ℤ) ≠ 1 := by
  decide

theorem andBits_two_pow_sub_one (w k y : ℕ) (hy : y < 2 ^ w) (hk : k ≤ w) :
    andBits w y (2 ^ k - 1) = y % 2 ^ k := by
  induction w generalizing y k with
  | zero =>
    have hk0 : k = 0 := by omega
    subst hk0
    simp [andBits, Nat.mod_one]
  | succ w ih =>
    rcases k with _ | k
    · have hz : ∀ v a, andBits v a 0 = 0 := by
        intro v
        induction v with
        | zero => intro a; simp [andBits]
        | succ v ihv => intro a; simp [andBits, ihv]
      have h0 : (2 : ℕ) ^ 0 - 1 = 0 := by norm_num
      rw [h0, hz]
      simp [Nat.mod_one]
    · have hps : (2 : ℕ) ^ (k + 1) = 2 * 2 ^ k := by rw [pow_succ]; ring
      have hpw : (2 : ℕ) ^ (w + 1) = 2 * 2 ^ w := by rw [pow_succ]; ring
      have hk1 : (1 : ℕ) ≤ 2 ^ k := Nat.one_le_two_pow
      have hmask2 : (2 ^ (k + 1) - 1) % 2 = 1 := by omega
      have hmaskd : (2 ^ (k + 1) - 1) / 2 = 2 ^ k - 1 := by omega
      have hy2 : y / 2 < 2 ^ w := by omega
      have hrec := ih k (y / 2) hy2 (by omega)
      show andBits w (y / 2) ((2 ^ (k + 1) - 1) / 2) * 2 + y % 2 * ((2 ^ (k + 1) - 1) % 2)
          = y % 2 ^ (k + 1)
      rw [hmask2, hmaskd, hrec]
      have h2 : y % 2 ^ (k + 1) % 2 = y % 2 := by
        rw [Nat.mod_mod_of_dvd y (dvd_pow_self 2 (Nat.succ_ne_zero k))]
      have h3 : y % 2 ^ (k + 1) / 2 = y / 2 % 2 ^ k := by
        rw [hps]
        exact Nat.mod_mul_right_div_self y 2 (2 ^ k)
      have h1 : y % 2 ^ (k + 1) = y % 2 ^ (k + 1) % 2 + 2 * (y % 2 ^ (k + 1) / 2) := by omega
      omega

/-- Claim C9, amended.  For every power-of-two alignment n = 2 ^ k and
every offset o, the align blocksize equals (-o) mod n; for other
alignments the code computes (-o) & (n - 1), which differs from the
claimed modulus. -/
theorem C9_align_pow_two (k : ℕ) (o : ℤ) :
    alignBlocksize ((2 : ℤ) ^ k) o = (-o) % (2 : ℤ) ^ k := by
  have hc : (((2 : ℕ) ^ k : ℕ) : ℤ) = (2 : ℤ) ^ k := by push_cast; ring
  have hpos : (0 : ℤ) < (2 : ℤ) ^ k := by positivity
  have hmn : ((2 : ℤ) ^ k - 1).toNat = 2 ^ k - 1 := by omega
  have h1 : (1 : ℕ) ≤ 2 ^ k := Nat.one_le_two_pow
  show (pyAndNonneg (-o) ((2 : ℤ) ^ k - 1).toNat : ℤ) = _
  rw [hmn]
  unfold pyAndNonneg
  have hm1 : 2 ^ k - 1 + 1 = 2 ^ k := by omega
  rw [hm1]
  have hpos2 : (0 : ℤ) < (2 : ℤ) ^ (2 ^ k) := by positivity
  have hy0 : (0 : ℤ) ≤ -o % (2 : ℤ) ^ (2 ^ k) := Int.emod_nonneg _ (ne_of_gt hpos2)
  have hylt : -o % (2 : ℤ) ^ (2 ^ k) < (2 : ℤ) ^ (2 ^ k) := Int.emod_lt_of_pos _ hpos2
  have hcast2 : (((2 : ℕ) ^ (2 ^ k) : ℕ) : ℤ) = (2 : ℤ) ^ (2 ^ k) := by push_cast; ring
  have hy : ((-o % (2 : ℤ) ^ (2 ^ k)).toNat) < 2 ^ (2 ^ k) := by omega
  rw [andBits_two_pow_sub_one (2 ^ k) k _ hy (le_of_lt (Nat.lt_two_pow k))]
  have hyv : (((-o % (2 : ℤ) ^ (2 ^ k)).toNat : ℕ) : ℤ) = -o % (2 : ℤ) ^ (2 ^ k) :=
    Int.toNat_of_nonneg hy0
  have e : ((((-o % (2 : ℤ) ^ (2 ^ k)).toNat % 2 ^ k : ℕ)) : ℤ)
      = (((-o % (2 : ℤ) ^ (2 ^ k)).toNat : ℕ) : ℤ) % (((2 : ℕ) ^ k : ℕ) : ℤ) := by
    push_cast
    ring
  rw [e, hyv, hc, Int.emod_emod_of_dvd _ (pow_dvd_pow 2 (le_of_lt (Nat.lt_two_pow k)))]

/-! ## Type engine (ptype.py, parray.py): atomic instances and containers -/

/-- An instance of the atomic ptype.type: a byte offset, the declared
length (type.blocksize returns self.length) and the raw loaded bytes of
type.value (none when the instance has never been deserialized). -/
structure Atom where
  offset : ℕ
  length : ℕ
  value : Option (List ℕ)
deriving DecidableEq

/-- type.initializedQ: the value is set and holds at least blocksize
bytes. -/
def Atom.initializedQ (a : Atom) : Bool :=
  match a.value with
  | some v => decide (a.length ≤ v.length)
  | none => false

/-- type.size: the number of loaded bytes; an unset value counts as zero
(the source logs and returns 0 there, and an empty value has length 0). -/
def Atom.size (a : Atom) : ℕ :=
  match a.value with
  | some v => v.length
  | none => 0

/-- type.blocksize: the declared length. -/
def Atom.blocksize (a : Atom) : ℕ := a.length

/-- type.deserialize_block: the value is set to block[:blocksize] in both
branches, and a StopIteration is raised when the block is short; the Bool
records the raise. -/
def Atom.deserialize (a : Atom) (block : List ℕ) : Atom × Bool :=
  ({ a with value := some (block.take a.length) }, decide (block.length < a.length))

inductive LoadExc where
  | loadError
deriving DecidableEq

/-- base.load for an atomic instance through the string provider: seek to
the offset, consume blocksize bytes, deserialize; a ConsumeError of the
provider and a StopIteration of the deserialize are wrapped into a
LoadError.  A value partially written before the raise persists. -/
def atomLoad (a : Atom) (data : List ℕ) : Atom × Option LoadExc :=
  match stringConsume data a.offset (a.length : ℤ) with
  | .error _ => (a, some .loadError)
  | .ok (block, _) =>
    match a.deserialize block with
    | (a2, raised) => (a2, if raised then some .loadError else none)

/-- A container instance with atomic children, as built by a pstruct whose
fields are all fixed-size atomic types. -/
structure Struct where
  offset : ℕ
  children : List Atom
deriving DecidableEq

/-- container.blocksize: the sum of the child blocksizes. -/
def Struct.blocksize (s : Struct) : ℕ := (s.children.map Atom.blocksize).sum

/-- container.size: the sum of the child sizes. -/
def Struct.size (s : Struct) : ℕ := (s.children.map Atom.size).sum

/-- container.initializedQ: all children initialized and the size reaches
the blocksize. -/
def Struct.initializedQ (s : Struct) : Bool :=
  s.children.all Atom.initializedQ && decide (s.blocksize ≤ s.size)

/-- The first loop of container.deserialize_block, working over a copy of
the child list: pop each child while the running total is below the
expected blocksize and deserialize it from the next blocksize-byte slice;
a StopIteration of a child propagates at once, before the block and the
total advance, leaving the later children untouched.  Returns the
processed children, the untouched rest, the remaining block, the total
consumed and whether a child raised. -/
def deserLoop1 : List Atom → List ℕ → ℕ → ℕ →
    List Atom × List Atom × List ℕ × ℕ × Bool
  | [], block, total, _ => ([], [], block, total, false)
  | c :: rest, block, total, expected =>
    if total < expected then
      match c.deserialize (block.take c.blocksize) with
      | (c2, raised) =>
        if raised then ([c2], rest, block, total, true)
        else
          match deserLoop1 rest (block.drop c.blocksize) (total + c.blocksize) expected with
          | (ps, us, b2, t2, r2) => (c2 :: ps, us, b2, t2, r2)
    else ([], c :: rest, block, total, false)

/-- The second loop of container.deserialize_block: pop the remaining
children, stop at the first one with a non-zero blocksize, and deserialize
the zero-sized ones from an empty slice. -/
def deserLoop2 : List Atom → List ℕ → List Atom
  | [], _ => []
  | c :: rest, block =>
    if c.blocksize ≠ 0 then c :: rest
    else (c.deserialize (block.take c.blocksize)).1 :: deserLoop2 rest block

inductive DeserExc where
  | stopIteration
  | loadError
deriving DecidableEq

/-- container.deserialize_block for a container of atoms: run the two
loops, then raise StopIteration when less than the expected blocksize was
consumed (after a warning log) and LoadError when more.  The returned list
is the complete child list after the in-place child mutations. -/
def containerDeserialize (children : List Atom) (block : List ℕ) (expected : ℕ) :
    List Atom × Option DeserExc :=
  match deserLoop1 children block 0 expected with
  | (ps, us, b2, total, raised) =>
    if raised then (ps ++ us, some .stopIteration)
    else
      let children2 := ps ++ deserLoop2 us b2
      if total < expected then (children2, some .stopIteration)
      else if total > expected then (children2, some .loadError)
      else (children2, none)

/-- base.load for a container of atoms backed by the string provider: seek
to the offset, consume blocksize bytes (the string provider may return a
truncated block without raising), then deserialize; StopIteration and
provider errors are wrapped into a LoadError.  Child mutations made before
an exception persist on the instance. -/
def structBaseLoad (s : Struct) (data : List ℕ) : Struct × Option LoadExc :=
  match stringConsume data s.offset (s.blocksize : ℤ) with
  | .error _ => (s, some .loadError)
  | .ok (block, _) =>
    match containerDeserialize s.children block s.blocksize with
    | (cs, exc) => ({ s with children := cs }, exc.map fun _ => .loadError)

/-- container.load on the contiguous path (the default configuration with
atomic children): delegate to base.load and catch the LoadError, log a
warning (when size is below blocksize) or a debug message, and return the
instance.  The Bool records that a LoadError was caught and swallowed; no
exception reaches the caller on this path. -/
def structLoad (s : Struct) (data : List ℕ) : Struct × Bool :=
  match structBaseLoad s data with
  | (s2, none) => (s2, false)
  | (s2, some _) => (s2, true)

/-- container.setposition with recurse for a container of atoms: walk the
children in order, assigning each the running offset and advancing it by
the child size when the child is initialized and by its blocksize
otherwise. -/
def setposChildren : List Atom → ℕ → List Atom
  | [], _ => []
  | c :: rest, ofs =>
    { c with offset := ofs } ::
      setposChildren rest (ofs + (if c.initializedQ then c.size else c.blocksize))

/-- container.setposition (setoffset with recurse=True). -/
def Struct.setposition (s : Struct) (ofs : ℕ) : Struct :=
  { offset := ofs, children := setposChildren s.children ofs }

/-- The re-flow loop of parray insert: from the insertion index on, assign
each element the running offset and advance it by the element blocksize
(v.setoffset with recurse only moves an atomic element). -/
def reflowFrom : List Atom → ℕ → List Atom
  | [], _ => []
  | c :: rest, ofs => { c with offset := ofs } :: reflowFrom rest (ofs + c.blocksize)

/-- parray insert: place the object at the offset of the element currently
at the index, insert it into the list, then re-flow every element from the
index on by blocksize.  An out-of-range index raises an IndexError (no
result). -/
def arrayInsert (s : Struct) (index : ℕ) (obj : Atom) : Option Struct :=
  match s.children[index]? with
  | none => none
  | some cAt =>
    let cs := s.children.take index ++ { obj with offset := cAt.offset } :: s.children.drop index
    some { s with children := cs.take index ++ reflowFrom (cs.drop index) cAt.offset }

/-- parray.terminated.load with a fixed-size atomic element type: create
an element at the running offset, append it, load it, stop inclusively
when isTerminator holds, and also stop on a zero-sized element
(break_on_zero_sized_element holds in the default configuration); an
element LoadError is re-raised wrapping the array, keeping the partial
value list.  The fuel only bounds the unbounded source loop and is never
exhausted on the inputs considered here. -/
def terminatedLoad (fuel elen : ℕ) (isTerm : Atom → Bool) (ofs : ℕ) (data : List ℕ) :
    List Atom × Option LoadExc :=
  match fuel with
  | 0 => ([], some .loadError)
  | fuel + 1 =>
    match atomLoad ⟨ofs, elen, none⟩ data with
    | (n, some _) => ([n], some .loadError)
    | (n, none) =>
      if isTerm n then ([n], none)
      else if elen = 0 then ([n], none)
      else
        match terminatedLoad fuel elen isTerm (ofs + elen) data with
        | (l, exc) => (n :: l, exc)

/-- The loop of parray.block.load with a fixed-size atomic element type
(block.isTerminator is constantly false): load an element; on a LoadError
append the partial element unless the boundary was hit exactly, and stop;
on success stop before appending a zero-sized element, append-and-stop
when the element reaches or passes the array blocksize, and otherwise
append and continue at the advanced offset. -/
def blockLoadLoop (fuel elen bs ofs current : ℕ) (data : List ℕ) : List Atom :=
  match fuel with
  | 0 => []
  | fuel + 1 =>
    match atomLoad ⟨ofs, elen, none⟩ data with
    | (n, some _) =>
      if current + elen > bs then [n]
      else if current + elen < bs then [n]
      else []
    | (n, none) =>
      if elen = 0 then []
      else if current + elen ≥ bs then [n]
      else n :: blockLoadLoop fuel elen bs (ofs + elen) (current + elen) data

/-- parray.block.load: an empty blocksize yields no elements, otherwise
run the loop from the array offset. -/
def blockArrayLoad (fuel elen bs ofs : ℕ) (data : List ℕ) : List Atom :=
  if bs = 0 then [] else blockLoadLoop fuel elen bs ofs 0 data

/-- type.serialize for a root atomic instance (no parent, so no parent
clamping applies): an initialized value is returned as is, padded with
zeros up to blocksize when shorter; an uninitialized instance yields its
partial value completed with zero padding up to blocksize. -/
def Atom.serialize (a : Atom) : List ℕ :=
  if a.initializedQ then
    match a.value with
    | some v => if v.length < a.length then v ++ List.replicate (a.length - v.length) 0 else v
    | none => []
  else
    match a.value with
    | none => List.replicate a.length 0
    | some v => v ++ (List.replicate a.length 0).drop v.length

/-- base.cast of an atomic instance to an atomic target shape of length
tlen, with the source instance threaded through explicitly: serialize the
source and read its blocksize, build a fresh result at the same offset,
load the result from a proxy provider over the serialized source with
offset 0 and the source blocksize temporarily assigned (the temporary
attributes are restored after the load, and a proxy ConsumeError is caught
and only logged), then force a deserialization of the serialized bytes
under the target blocksize, ignoring the partial-read exception.  Every
step reads the source: the pair returns the result together with the
source instance as the call leaves it. -/
def Atom.cast (x : Atom) (tlen : ℕ) : Atom × Atom :=
  let data := x.serialize
  let bs := x.blocksize
  let r0 : Atom := { offset := x.offset, length := tlen, value := none }
  let buf := x.serialize
  let r1 :=
    if bs ≤ buf.length then
      { ({ r0 with offset := 0, length := bs }.deserialize (buf.take bs)).1 with
        offset := r0.offset, length := tlen }
    else r0
  ((r1.deserialize data).1, x)

example : structLoad ⟨0, [⟨0, 2, none⟩, ⟨2, 2, none⟩]⟩ [65, 66, 67, 68]
    = (⟨0, [⟨0, 2, some [65, 66]⟩, ⟨2, 2, some [67, 68]⟩]⟩, false) := by decide
example : (Atom.cast ⟨7, 2, some [1, 2]⟩ 4).1 = ⟨7, 4, some [1, 2]⟩ := by decide

/-- Claim C1, counterexample.  Loading a two-field structure (two 2-byte
atoms) from a 3-byte provider returns normally: the caught LoadError is
downgraded to a warning (flag true), the partially initialized instance is
handed back to the caller, and no exception propagates out of load,
contradicting the claim that a ShortReadError is raised to the caller. -/
theorem C1_load_returns_counterexample :
    structLoad ⟨0, [⟨0, 2, none⟩, ⟨2, 2, none⟩]⟩ [65, 66, 67]
      = (⟨0, [⟨0, 2, some [65, 66]⟩, ⟨2, 2, some [67]⟩]⟩, true) ∧
    Struct.size ⟨0, [⟨0, 2, some [65, 66]⟩, ⟨2, 2, some [67]⟩]⟩ = 3 ∧
    Struct.blocksize ⟨0, [⟨0, 2, some [65, 66]⟩, ⟨2, 2, some [67]⟩]⟩ = 4 := by
  decide

/-- The short-consume shape of the string provider: at least one byte but
fewer than the requested count available returns the tail of the buffer
without advancing the cursor and without raising. -/
theorem stringConsume_short (data : List ℕ) (offset : ℕ) (bs : ℕ)
    (hoff : offset < data.length) (hshort : data.length - offset < bs) :
    stringConsume data offset (bs : ℤ) = .ok (data.drop offset, offset) := by
  have hbs : 0 < bs := by omega
  have htn : ((bs : ℤ)).toNat = bs := by omega
  have hmin : min (offset + ((bs : ℤ)).toNat) data.length = data.length := by omega
  have hdl : (data.drop offset).length = data.length - offset := List.length_drop offset data
  have htake : (data.drop offset).take (min (offset + ((bs : ℤ)).toNat) data.length - offset)
      = data.drop offset := by
    rw [hmin]
    rw [show data.length - offset = (data.drop offset).length from hdl.symm]
    exact List.take_length _
  rw [stringConsume, if_neg (by omega), if_neg (by omega), if_neg (by omega)]
  rw [if_neg (by
    rintro ⟨hnil, -⟩
    rw [htake] at hnil
    have := congrArg List.length hnil
    simp only [List.length_nil, hdl] at this
    omega)]
  rw [if_neg (by rw [htake, hdl]; omega), htake]

/-- The result of the first deserialize loop on a short block: every child
whose slice is complete is deserialized in full, the child hitting the end
of the block keeps its truncated slice, and the children after it are
untouched. -/
def shortFill : List Atom → List ℕ → List Atom
  | [], _ => []
  | c :: rest, block =>
    (c.deserialize (block.take c.blocksize)).1 ::
      (if block.length < c.blocksize then rest else shortFill rest (block.drop c.blocksize))

theorem deserLoop1_short (cs : List Atom) (block : List ℕ) (t e : ℕ)
    (hinv : t + (cs.map Atom.blocksize).sum = e)
    (hshort : block.length < (cs.map Atom.blocksize).sum) :
    ∃ ps us b2 t2, deserLoop1 cs block t e = (ps, us, b2, t2, true) ∧
      ps ++ us = shortFill cs block := by
  induction cs generalizing block t with
  | nil => simp only [List.map_nil, List.sum_nil] at hshort; omega
  | cons c rest ih =>
    simp only [List.map_cons, List.sum_cons] at hinv hshort
    have hcond : t < e := by omega
    have hraise : (c.deserialize (block.take c.blocksize)).2
        = decide (block.length < c.blocksize) := by
      show decide ((block.take c.blocksize).length < c.length) = _
      rw [List.length_take]
      by_cases hx : block.length < c.blocksize
      · simp only [Atom.blocksize] at hx ⊢
        rw [decide_eq_decide]
        omega
      · simp only [Atom.blocksize] at hx ⊢
        rw [decide_eq_decide]
        omega
    by_cases hx : block.length < c.blocksize
    · refine ⟨[(c.deserialize (block.take c.blocksize)).1], rest, block, t, ?_, ?_⟩
      · rw [deserLoop1, if_pos hcond]
        have : c.deserialize (block.take c.blocksize)
            = ((c.deserialize (block.take c.blocksize)).1, true) := by
          rw [Prod.ext_iff]
          refine ⟨rfl, ?_⟩
          show (c.deserialize (block.take c.blocksize)).2 = true
          rw [hraise]
          simpa using hx
        rw [this]
        rfl
      · rw [shortFill, if_pos hx]
        rfl
    · have hinv2 : (t + c.blocksize) + (rest.map Atom.blocksize).sum = e := by
        simp only [Atom.blocksize] at *
        omega
      have hshort2 : (block.drop c.blocksize).length < (rest.map Atom.blocksize).sum := by
        rw [List.length_drop]
        simp only [Atom.blocksize] at *
        omega
      obtain ⟨ps, us, b2, t2, heq, happ⟩ := ih (block.drop c.blocksize) (t + c.blocksize)
        hinv2 hshort2
      refine ⟨(c.deserialize (block.take c.blocksize)).1 :: ps, us, b2, t2, ?_, ?_⟩
      · rw [deserLoop1, if_pos hcond]
        have : c.deserialize (block.take c.blocksize)
            = ((c.deserialize (block.take c.blocksize)).1, false) := by
          rw [Prod.ext_iff]
          refine ⟨rfl, ?_⟩
          show (c.deserialize (block.take c.blocksize)).2 = false
          rw [hraise]
          simpa using hx
        rw [this, heq]
        rfl
      · rw [shortFill, if_neg hx]
        simp [happ]

theorem containerDeserialize_short (cs : List Atom) (block : List ℕ)
    (hshort : block.length < (cs.map Atom.blocksize).sum) :
    containerDeserialize cs block ((cs.map Atom.blocksize).sum)
      = (shortFill cs block, some .stopIteration) := by
  obtain ⟨ps, us, b2, t2, heq, happ⟩ :=
    deserLoop1_short cs block 0 ((cs.map Atom.blocksize).sum) (by omega) hshort
  rw [containerDeserialize, heq]
  simp [happ]

theorem sumSize_zero_of_fresh (l : List Atom) (h : ∀ c ∈ l, c.value = none) :
    (l.map Atom.size).sum = 0 := by
  induction l with
  | nil => rfl
  | cons c rest ih =>
    have hc : c.value = none := h c (by simp)
    have hcz : c.size = 0 := by rw [Atom.size, hc]
    simp only [List.map_cons, List.sum_cons, hcz, ih (fun x hx => h x (by simp [hx]))]

theorem shortFill_blocksize (cs : List Atom) (block : List ℕ) :
    (shortFill cs block).map Atom.blocksize = cs.map Atom.blocksize := by
  induction cs generalizing block with
  | nil => rfl
  | cons c rest ih =>
    rw [shortFill]
    by_cases hx : block.length < c.blocksize
    · rw [if_pos hx]
      rfl
    · rw [if_neg hx]
      simp only [List.map_cons, ih]
      rfl

theorem shortFill_size (cs : List Atom) (block : List ℕ)
    (hfresh : ∀ c ∈ cs, c.value = none)
    (hshort : block.length < (cs.map Atom.blocksize).sum) :
    ((shortFill cs block).map Atom.size).sum = block.length := by
  induction cs generalizing block with
  | nil => simp only [List.map_nil, List.sum_nil] at hshort; omega
  | cons c rest ih =>
    have hhead : ((c.deserialize (block.take c.blocksize)).1).size
        = min c.length block.length := by
      show ((block.take c.blocksize).take c.length).length = _
      simp only [Atom.blocksize, List.take_take, min_self, List.length_take]
    rw [shortFill]
    by_cases hx : block.length < c.blocksize
    · rw [if_pos hx]
      simp only [List.map_cons, List.sum_cons, hhead,
        sumSize_zero_of_fresh rest (fun x hx2 => hfresh x (by simp [hx2]))]
      simp only [Atom.blocksize] at hx
      omega
    · rw [if_neg hx]
      simp only [List.map_cons, List.sum_cons] at hshort ⊢
      have hrec := ih (block.drop c.blocksize) (fun x hx2 => hfresh x (by simp [hx2]))
        (by rw [List.length_drop]; simp only [Atom.blocksize] at *; omega)
      rw [hhead, hrec, List.length_drop]
      simp only [Atom.blocksize] at hx ⊢
      omega

theorem sum_take_succ_of_get (l : List Atom) (i : ℕ) (a : Atom) (h : l[i]? = some a) :
    ((l.take (i + 1)).map Atom.blocksize).sum
      = ((l.take i).map Atom.blocksize).sum + a.blocksize := by
  rw [List.take_succ, h]
  simp

/-- The child at the given index after a deserialization that covered it:
its value is the blocksize-long slice of the block at its position. -/
def sliceAtom (a : Atom) (block : List ℕ) (pos : ℕ) : Atom :=
  { a with value := some ((block.drop pos).take a.length) }

theorem shortFill_get (cs : List Atom) (block : List ℕ) (i : ℕ) (a : Atom)
    (ha : cs[i]? = some a)
    (hcov : ((cs.take (i + 1)).map Atom.blocksize).sum ≤ block.length) :
    (shortFill cs block)[i]? =
      some (sliceAtom a block ((cs.take i).map Atom.blocksize).sum) := by
  induction cs generalizing block i with
  | nil => simp at ha
  | cons c rest ih =>
    rcases i with _ | i
    · have hac : c = a := by simpa using ha
      subst hac
      rw [shortFill]
      have hval : (block.take c.blocksize).take c.length = block.take c.length := by
        rw [List.take_take]
        show block.take (min c.length c.length) = _
        rw [min_self]
      have hgoal : (c.deserialize (block.take c.blocksize)).1 = sliceAtom c block 0 := by
        show { c with value := some ((block.take c.blocksize).take c.length) } = _
        rw [hval]
        show _ = { c with value := some ((block.drop 0).take c.length) }
        rw [List.drop_zero]
      by_cases hx : block.length < c.blocksize
      · rw [if_pos hx, List.getElem?_cons_zero, hgoal]
        rfl
      · rw [if_neg hx, List.getElem?_cons_zero, hgoal]
        rfl
    · have ha2 : rest[i]? = some a := by simpa using ha
      have hsum : (((c :: rest).take (i + 1 + 1)).map Atom.blocksize).sum
          = c.blocksize + ((rest.take (i + 1)).map Atom.blocksize).sum := by
        simp [List.take_succ_cons]
      rw [hsum] at hcov
      have hx : ¬ block.length < c.blocksize := by omega
      rw [shortFill, if_neg hx, List.getElem?_cons_succ]
      have hrec := ih (block.drop c.blocksize) i ha2
        (by rw [List.length_drop]; omega)
      rw [hrec]
      have hsum2 : (((c :: rest).take (i + 1)).map Atom.blocksize).sum
          = c.blocksize + ((rest.take i).map Atom.blocksize).sum := by
        simp [List.take_succ_cons]
      rw [hsum2]
      show some (sliceAtom a (block.drop c.blocksize) ((rest.take i).map Atom.blocksize).sum)
          = some (sliceAtom a block (c.blocksize + ((rest.take i).map Atom.blocksize).sum))
      rw [sliceAtom, sliceAtom, List.drop_drop]

/-- Claim C1, amended.  Loading a structure of fresh fixed-size atomic
fields from a string provider holding at least one byte but fewer than
blocksize() bytes at the offset yields an instance with
size() = available < blocksize(); the LoadError produced by the internal
StopIteration is caught inside container.load, which logs a warning and
returns the partially initialized instance to the caller (no exception
propagates); and every field whose slice was fully available is kept
initialized with exactly its bytes, so the earlier fields remain
readable. -/
theorem C1_short_load (s : Struct) (data : List ℕ)
    (hoff : s.offset < data.length)
    (hshort : data.length - s.offset < s.blocksize)
    (hfresh : ∀ c ∈ s.children, c.value = none) :
    (structLoad s data).2 = true ∧
    (structLoad s data).1.size = data.length - s.offset ∧
    (structLoad s data).1.blocksize = s.blocksize ∧
    (structLoad s data).1.size < (structLoad s data).1.blocksize ∧
    (∀ i a, s.children[i]? = some a →
      ((s.children.take (i + 1)).map Atom.blocksize).sum ≤ data.length - s.offset →
      (structLoad s data).1.children[i]? =
        some (sliceAtom a data (s.offset + ((s.children.take i).map Atom.blocksize).sum)) ∧
      (sliceAtom a data
        (s.offset + ((s.children.take i).map Atom.blocksize).sum)).initializedQ = true) := by
  have hbs : s.blocksize = (s.children.map Atom.blocksize).sum := rfl
  have hblen : (data.drop s.offset).length = data.length - s.offset := List.length_drop _ _
  have hshort2 : (data.drop s.offset).length < (s.children.map Atom.blocksize).sum := by
    rw [hblen, ← hbs]
    exact hshort
  have hbase : structBaseLoad s data =
      ({ s with children := shortFill s.children (data.drop s.offset) }, some .loadError) := by
    rw [structBaseLoad, stringConsume_short data s.offset s.blocksize hoff hshort]
    show (match containerDeserialize s.children (data.drop s.offset) s.blocksize with
      | (cs, exc) => ({ s with children := cs }, exc.map fun _ => LoadExc.loadError)) = _
    rw [hbs, containerDeserialize_short s.children (data.drop s.offset) hshort2]
    rfl
  have hload : structLoad s data =
      ({ s with children := shortFill s.children (data.drop s.offset) }, true) := by
    rw [structLoad, hbase]
  rw [hload]
  refine ⟨rfl, ?_, ?_, ?_, ?_⟩
  · show ((shortFill s.children (data.drop s.offset)).map Atom.size).sum = _
    rw [shortFill_size s.children (data.drop s.offset) hfresh hshort2, hblen]
  · show ((shortFill s.children (data.drop s.offset)).map Atom.blocksize).sum = _
    rw [shortFill_blocksize, hbs]
  · show ((shortFill s.children (data.drop s.offset)).map Atom.size).sum
        < ((shortFill s.children (data.drop s.offset)).map Atom.blocksize).sum
    rw [shortFill_size s.children (data.drop s.offset) hfresh hshort2,
      shortFill_blocksize, ← hbs, hblen]
    exact hshort
  · intro i a ha hcov
    have hcov2 : ((s.children.take (i + 1)).map Atom.blocksize).sum
        ≤ (data.drop s.offset).length := by rw [hblen]; exact hcov
    have hget := shortFill_get s.children (data.drop s.offset) i a ha hcov2
    have hcum : a.blocksize + ((s.children.take i).map Atom.blocksize).sum
        ≤ data.length - s.offset := by
      have := sum_take_succ_of_get s.children i a ha
      omega
    have hslice : sliceAtom a (data.drop s.offset) ((s.children.take i).map Atom.blocksize).sum
        = sliceAtom a data (s.offset + ((s.children.take i).map Atom.blocksize).sum) := by
      rw [sliceAtom, sliceAtom, List.drop_drop]
    constructor
    · show (shortFill s.children (data.drop s.offset))[i]? = _
      rw [hget, hslice]
    · show Atom.initializedQ { a with value := some ((data.drop
          (s.offset + ((s.children.take i).map Atom.blocksize).sum)).take a.length) } = true
      show decide (a.length ≤ ((data.drop
          (s.offset + ((s.children.take i).map Atom.blocksize).sum)).take a.length).length) = true
      rw [List.length_take, List.length_drop]
      have : a.blocksize = a.length := rfl
      simp only [decide_eq_true_eq]
      omega

theorem C1_short_load_witness :
    (structLoad ⟨0, [⟨0, 3, none⟩, ⟨3, 3, none⟩]⟩ [1, 2, 3, 4]).2 = true ∧
    (structLoad ⟨0, [⟨0, 3, none⟩, ⟨3, 3, none⟩]⟩ [1, 2, 3, 4]).1.size
      = ([1, 2, 3, 4] : List ℕ).length - 0 :=
  ⟨(C1_short_load ⟨0, [⟨0, 3, none⟩, ⟨3, 3, none⟩]⟩ [1, 2, 3, 4] (by decide) (by decide)
      (by decide)).1,
   (C1_short_load ⟨0, [⟨0, 3, none⟩, ⟨3, 3, none⟩]⟩ [1, 2, 3, 4] (by decide) (by decide)
      (by decide)).2.1⟩

/-- Claim C7, counterexample.  In a fixed-width array (elements of
blocksize 2) holding a partially initialized element (one byte loaded,
size 1), inserting at index 0 re-flows the subsequent offsets by
blocksize: the element after the partial one lands at offset 6, not at
previousOffset + previousSize = 4 + 1 = 5 as claimed. -/
theorem C7_insert_counterexample :
    arrayInsert ⟨0, [⟨0, 2, some [65, 66]⟩, ⟨2, 2, some [67]⟩, ⟨4, 2, some [68, 69]⟩]⟩ 0
        ⟨99, 2, some [1, 2]⟩
      = some ⟨0, [⟨0, 2, some [1, 2]⟩, ⟨2, 2, some [65, 66]⟩, ⟨4, 2, some [67]⟩,
          ⟨6, 2, some [68, 69]⟩]⟩ ∧
    (6 : ℕ) ≠ 4 + Atom.size ⟨4, 2, some [67]⟩ := by
  decide

theorem setposChildren_get (l : List Atom) (ofs i : ℕ) (a b : Atom)
    (h1 : (setposChildren l ofs)[i]? = some a)
    (h2 : (setposChildren l ofs)[i + 1]? = some b) :
    b.offset = a.offset + (if a.initializedQ then a.size else a.blocksize) := by
  induction l generalizing ofs i with
  | nil => simp [setposChildren] at h1
  | cons c rest ih =>
    rcases i with _ | i
    · rw [setposChildren, List.getElem?_cons_zero] at h1
      rw [setposChildren, List.getElem?_cons_succ] at h2
      obtain rfl : _ = a := Option.some_injective _ h1
      cases rest with
      | nil => simp [setposChildren] at h2
      | cons c2 r2 =>
        rw [setposChildren, List.getElem?_cons_zero] at h2
        obtain rfl : _ = b := Option.some_injective _ h2
        rfl
    · rw [setposChildren, List.getElem?_cons_succ] at h1
      rw [setposChildren, List.getElem?_cons_succ] at h2
      exact ih _ i h1 h2

theorem reflowFrom_get (l : List Atom) (ofs i : ℕ) (a b : Atom)
    (h1 : (reflowFrom l ofs)[i]? = some a)
    (h2 : (reflowFrom l ofs)[i + 1]? = some b) :
    b.offset = a.offset + a.blocksize := by
  induction l generalizing ofs i with
  | nil => simp [reflowFrom] at h1
  | cons c rest ih =>
    rcases i with _ | i
    · rw [reflowFrom, List.getElem?_cons_zero] at h1
      rw [reflowFrom, List.getElem?_cons_succ] at h2
      obtain rfl : _ = a := Option.some_injective _ h1
      cases rest with
      | nil => simp [reflowFrom] at h2
      | cons c2 r2 =>
        rw [reflowFrom, List.getElem?_cons_zero] at h2
        obtain rfl : _ = b := Option.some_injective _ h2
        rfl
    · rw [reflowFrom, List.getElem?_cons_succ] at h1
      rw [reflowFrom, List.getElem?_cons_succ] at h2
      exact ih _ i h1 h2

/-- Claim C7, amended.  The recursive offset update walks the children in
order, deriving each next offset from the previous child by its size when
that child is initialized and by its blocksize when not; the insert
re-flow of an array, however, always advances by the previous element
blocksize, which agrees with previousOffset + previousSize exactly for
elements that are initialized to their full declared width. -/
theorem C7_offset_reflow (s : Struct) (ofs index : ℕ) (obj : Atom) :
    (∀ i a b,
      (s.setposition ofs).children[i]? = some a →
      (s.setposition ofs).children[i + 1]? = some b →
      b.offset = a.offset + (if a.initializedQ then a.size else a.blocksize)) ∧
    (∀ s2, arrayInsert s index obj = some s2 →
      ∀ i a b, index ≤ i →
        s2.children[i]? = some a → s2.children[i + 1]? = some b →
        b.offset = a.offset + a.blocksize ∧
        (a.initializedQ = true → a.size = a.blocksize → b.offset = a.offset + a.size)) := by
  constructor
  · intro i a b h1 h2
    exact setposChildren_get s.children ofs i a b h1 h2
  · intro s2 hs2 i a b hle h1 h2
    rcases hidx : s.children[index]? with _ | cAt
    · rw [arrayInsert, hidx] at hs2
      cases hs2
    · rw [arrayInsert, hidx] at hs2
      obtain rfl : _ = s2 := Option.some_injective _ hs2
      set K := s.children.take index ++ { obj with offset := cAt.offset } :: s.children.drop index
        with hK
      have hidxlt : index < s.children.length := by
        rcases List.getElem?_eq_some_iff.mp hidx with ⟨hlt, -⟩
        exact hlt
      have hKtakelen : (K.take index).length = index := by
        rw [List.length_take, hK]
        simp only [List.length_append, List.length_cons, List.length_take, List.length_drop]
        omega
      have hg1 : (K.take index ++ reflowFrom (K.drop index) cAt.offset)[i]?
          = (reflowFrom (K.drop index) cAt.offset)[i - index]? := by
        rw [List.getElem?_append_right (by omega)]
        rw [hKtakelen]
      have hg2 : (K.take index ++ reflowFrom (K.drop index) cAt.offset)[i + 1]?
          = (reflowFrom (K.drop index) cAt.offset)[i - index + 1]? := by
        rw [List.getElem?_append_right (by omega)]
        rw [hKtakelen, show i + 1 - index = i - index + 1 by omega]
      have h1b : (reflowFrom (K.drop index) cAt.offset)[i - index]? = some a := by
        rw [← hg1]
        exact h1
      have h2b : (reflowFrom (K.drop index) cAt.offset)[i - index + 1]? = some b := by
        rw [← hg2]
        exact h2
      have hmain := reflowFrom_get (K.drop index) cAt.offset (i - index) a b h1b h2b
      exact ⟨hmain, fun _ hsz => by rw [hmain, hsz]⟩

theorem C7_offset_reflow_witness :
    ((⟨9, 2, none⟩ : Atom).offset
      = (⟨7, 2, some [1, 2]⟩ : Atom).offset +
        (if (⟨7, 2, some [1, 2]⟩ : Atom).initializedQ then (⟨7, 2, some [1, 2]⟩ : Atom).size
         else (⟨7, 2, some [1, 2]⟩ : Atom).blocksize)) ∧
    ((⟨7, 2, some [8]⟩ : Atom).offset
      = (⟨5, 2, some [1, 2]⟩ : Atom).offset + (⟨5, 2, some [1, 2]⟩ : Atom).blocksize) := by
  constructor
  · exact (C7_offset_reflow ⟨0, [⟨0, 2, some [1, 2]⟩, ⟨0, 2, none⟩]⟩ 7 0 ⟨0, 0, none⟩).1
      0 ⟨7, 2, some [1, 2]⟩ ⟨9, 2, none⟩ (by decide) (by decide)
  · exact ((C7_offset_reflow ⟨0, [⟨3, 2, some [1, 2]⟩, ⟨9, 2, some [8]⟩]⟩ 0 0
      ⟨0, 2, some [1, 2]⟩).2
      ⟨0, [⟨3, 2, some [1, 2]⟩, ⟨5, 2, some [1, 2]⟩, ⟨7, 2, some [8]⟩]⟩ (by decide)
      1 ⟨5, 2, some [1, 2]⟩ ⟨7, 2, some [8]⟩ (by decide) (by decide) (by decide)).1

/-- Claim C8.  A sentinel-terminated array of one-byte elements over the
bytes ABAB NUL CD with the terminator byte 0 loads exactly five elements,
the terminating element included, and a block-bounded array with
blocksize 4 over four-byte elements on the bytes WXYZ1234 loads exactly
one element of size 4, ignoring the remaining bytes. -/
theorem C8_array_termination :
    terminatedLoad 8 1 (fun a => a.value == some [0]) 0 [65, 66, 65, 66, 0, 67, 68]
      = ([⟨0, 1, some [65]⟩, ⟨1, 1, some [66]⟩, ⟨2, 1, some [65]⟩, ⟨3, 1, some [66]⟩,
          ⟨4, 1, some [0]⟩], none) ∧
    blockArrayLoad 8 4 4 0 [87, 88, 89, 90, 49, 50, 51, 52] = [⟨0, 4, some [87, 88, 89, 90]⟩] ∧
    Atom.size ⟨0, 4, some [87, 88, 89, 90]⟩ = 4 := by
  decide

/-- Claim C10.  Casting an initialized atomic instance to a shape of any
length returns a freshly built instance carrying the target length and
leaves the source instance itself unchanged: the threaded-through source
is returned exactly as it was (same value bytes, offset and
initialization state). -/
theorem C10_cast_frame (x : Atom) (tlen : ℕ) (h : x.initializedQ = true) :
    (x.cast tlen).2 = x ∧ (x.cast tlen).1.length = tlen := by
  refine ⟨rfl, ?_⟩
  rw [Atom.cast]
  split_ifs <;> rfl

theorem C10_cast_frame_witness :
    ((⟨5, 2, some [1, 2]⟩ : Atom).cast 3).2 = ⟨5, 2, some [1, 2]⟩ ∧
    ((⟨5, 2, some [1, 2]⟩ : Atom).cast 3).1.length = 3 :=
  C10_cast_frame ⟨5, 2, some [1, 2]⟩ 3 (by decide)
